import Mathlib

/-!
A verification development for the `lui` command-line client.

We shallowly embed the output-processing core of the program:

* `remove_think_block` (src/server.rs) — strips a leading
  `<think>…</think>` block from a complete response;
* `TokenIter` (src/server.rs) — the streamed-mode chunk parser over
  wire lines;
* `get_complete_output` / `OutputIter` (src/server.rs) — the
  complete-mode response reader;
* `OutputNormalizer` (src/main.rs) — the stateful filter that turns
  raw chunks into the user-facing chunk sequence.

Strings are embedded as `List Char` (Rust `String` is a sequence of
`char`s for every operation the code performs, except `str::find`,
which returns a *byte* offset; we account for that with an explicit
UTF-8 byte-size function).  JSON values are embedded as an inductive
`Json`; the third-party JSON text parser is kept abstract (a
parameter) since it is external library code.
-/

/-- Number of bytes of the UTF-8 encoding of a character, as counted
by Rust when it reports byte offsets into a `str`. -/
def charUtf8Size (c : Char) : Nat :=
  if c.toNat < 128 then 1
  else if c.toNat < 2048 then 2
  else if c.toNat < 65536 then 3
  else 4

/-- Rust `char::is_whitespace`: the Unicode `White_Space` property. -/
def rustWhitespace (c : Char) : Bool :=
  let n := c.toNat
  (decide (9 ≤ n) && decide (n ≤ 13)) || n == 32 || n == 133 || n == 160
    || n == 5760 || (decide (8192 ≤ n) && decide (n ≤ 8202)) || n == 8232
    || n == 8233 || n == 8239 || n == 8287 || n == 12288

/-- Carriage return or line feed (the set `['\r', '\n']` that the
source passes to `trim_matches` and `trim_start_matches`). -/
def crlfChar (c : Char) : Bool :=
  c == '\r' || c == '\n'

/-- Rust `str::trim_start`: drop leading whitespace. -/
def trimStartWs (s : List Char) : List Char :=
  s.dropWhile rustWhitespace

/-- Rust `str::trim_end`: drop trailing whitespace. -/
def trimEndWs (s : List Char) : List Char :=
  (s.reverse.dropWhile rustWhitespace).reverse

/-- Rust `str::trim_start_matches(['\r', '\n'])`. -/
def trimStartCRLF (s : List Char) : List Char :=
  s.dropWhile crlfChar

/-- Rust `str::trim_matches(['\r', '\n'])`: trim from both ends. -/
def trimBothCRLF (s : List Char) : List Char :=
  ((s.dropWhile crlfChar).reverse.dropWhile crlfChar).reverse

/-- Rust `str::find(pat)`: byte offset of the first occurrence of
`pat` in the haystack, `none` if absent.  The offset is a *byte*
offset, obtained by summing the UTF-8 sizes of the skipped
characters. -/
def findSub (pat : List Char) : List Char → Option Nat
  | [] => if pat.isPrefixOf ([] : List Char) then some 0 else none
  | c :: rest =>
    if pat.isPrefixOf (c :: rest) then some 0
    else (findSub pat rest).map (fun k => k + charUtf8Size c)

/-- The opening sentinel `<think>`. -/
def thinkOpen : List Char := ("<think>").toList

/-- The closing sentinel `</think>`. -/
def thinkClose : List Char := ("</think>").toList

/-- `server::remove_think_block`: if the message starts with
`<think>` and contains `</think>` (found at byte offset `pos`), the
code collects `message.chars().skip(pos + 8)` and trims leading
carriage returns and line feeds; otherwise the message is returned
unchanged.  Note that `pos` is a byte offset while `skip` counts
characters, exactly as in the source. -/
def remove_think_block (message : List Char) : List Char :=
  if thinkOpen.isPrefixOf message then
    match findSub thinkClose message with
    | some pos => trimStartCRLF (message.drop (pos + 8))
    | none => message
  else
    message

/-- `server::Output`: one unit of server output. -/
structure Output where
  message : List Char
  prompt_tokens : Option Nat
  approximate_total : Option (List Char)
deriving DecidableEq

/-! ## JSON model

`serde_json::Value`, restricted to what the program touches.
Numbers are integral (`num`) or non-integral (`numOther`); a
non-integral number never satisfies `as_u64`. -/

inductive Json where
  | null
  | bool (b : Bool)
  | num (n : Int)
  | numOther
  | str (s : List Char)
  | arr (elems : List Json)
  | obj (fields : List (List Char × Json))

/-- Key lookup in an object's field list (first match;
`serde_json` maps have unique keys after parsing). -/
def jsonLookup (key : List Char) : List (List Char × Json) → Json
  | [] => Json.null
  | (k, v) :: rest => if k == key then v else jsonLookup key rest

/-- `value[key]` on a `serde_json::Value`: `Null` when the value is
not an object or the key is absent. -/
def Json.getKey (v : Json) (key : List Char) : Json :=
  match v with
  | .obj fields => jsonLookup key fields
  | _ => .null

/-- `value[i]` on a `serde_json::Value`: `Null` when the value is not
an array or the index is out of range. -/
def Json.getIdx (v : Json) (i : Nat) : Json :=
  match v with
  | .arr elems =>
    match elems.get? i with
    | some x => x
    | none => .null
  | _ => .null

/-- `Value::as_str`. -/
def Json.asStr : Json → Option (List Char)
  | .str s => some s
  | _ => none

/-- `Value::as_u64`: `some` exactly for integral numbers in the
`u64` range. -/
def Json.asU64 : Json → Option Nat
  | .num n => if 0 ≤ n ∧ n < (2 : Int) ^ 64 then some n.toNat else none
  | _ => none

def choicesKey : List Char := ("choices").toList
def deltaKey : List Char := ("delta").toList
def contentKey : List Char := ("content").toList
def messageKey : List Char := ("message").toList
def usageKey : List Char := ("usage").toList
def ptKey : List Char := ("prompt_tokens").toList
def atKey : List Char := ("approximate_total").toList

/-- The path `value["choices"][0]["delta"]["content"]`. -/
def deltaContentOf (value : Json) : Json :=
  ((value.getKey choicesKey).getIdx 0).getKey deltaKey |>.getKey contentKey

/-- The path `value["usage"]["prompt_tokens"]`. -/
def usagePtOf (value : Json) : Json :=
  (value.getKey usageKey).getKey ptKey

/-- The path `value["usage"]["approximate_total"]`. -/
def usageAtOf (value : Json) : Json :=
  (value.getKey usageKey).getKey atKey

/-- The path `value["choices"][0]["message"]["content"]`. -/
def messageContentOf (value : Json) : Json :=
  (((value.getKey choicesKey).getIdx 0).getKey messageKey).getKey contentKey

/-! ## Chunk Parser (`server::TokenIter`) -/

/-- The `data: ` event-stream marker. -/
def dataMarker : List Char := ("data: ").toList

/-- The `[DONE]` end-of-stream sentinel. -/
def doneMarker : List Char := ("[DONE]").toList

namespace TokenIter

/-- The chunk built from one parsed wire object
(src/server.rs, `TokenIter::next`, the `Some(Output { .. })` value):
`content.as_str().unwrap_or("")`, `usage.prompt_tokens.as_u64()`,
`usage.approximate_total.as_str()`. -/
def chunkOf (value : Json) : Output :=
  { message := (deltaContentOf value).asStr.getD []
  , prompt_tokens := (usagePtOf value).asU64
  , approximate_total := (usageAtOf value).asStr }

/-- The full chunk sequence `TokenIter` yields over a list of wire
lines, together with whether an error was reported
(`log::error!`).  This transcribes the `read_line` loop of
`TokenIter::next`, iterated to exhaustion: skip lines that trim (on
both ends, over CR and LF) to empty; abort with an error on a line
missing the `data: ` marker; stop silently on `[DONE]` or end of
input; abort with an error when the payload does not parse as JSON;
otherwise emit the extracted chunk and continue.

(The source appends each `read_line` into one buffer without
clearing it between skipped lines; since a line is skipped only when
it consists solely of CR/LF characters, and the buffer is trimmed on
both ends before use, this is equivalent to the per-line processing
modelled here.)

The JSON text parser (`serde_json::from_str`) is external library
code and is passed in as `parse`. -/
def run (parse : List Char → Option Json) : List (List Char) → List Output × Bool
  | [] => ([], false)
  | raw :: rest =>
    let line := trimBothCRLF raw
    if line.isEmpty then run parse rest
    else if !(dataMarker.isPrefixOf line) then ([], true)
    else
      let json := line.drop dataMarker.length
      if json == doneMarker then ([], false)
      else
        match parse json with
        | none => ([], true)
        | some value =>
          (chunkOf value :: (run parse rest).1, (run parse rest).2)

end TokenIter

/-! ## Complete-mode reader (`server::get_complete_output`,
`server::OutputIter`) -/

def malformedMsg : List Char := ("malformed response").toList
def ptNotIntMsg : List Char := ("usage.prompt_tokens is not integer").toList

/-- `server::get_complete_output`, applied to the already-parsed JSON
body: `choices[0].message.content` must be a string,
`usage.prompt_tokens` must be a `u64`, `usage.approximate_total`
must be a string; each check failing short-circuits with the error
message of the source. -/
def get_complete_output (value : Json) : Except (List Char) Output :=
  match (messageContentOf value).asStr with
  | none => .error malformedMsg
  | some message =>
    match (usagePtOf value).asU64 with
    | none => .error ptNotIntMsg
    | some pt =>
      match (usageAtOf value).asStr with
      | none => .error malformedMsg
      | some apx =>
        .ok { message := message
            , prompt_tokens := some pt
            , approximate_total := some apx }

/-- `server::OutputIter`: holds an optional pre-computed output. -/
structure OutputIter where
  output : Option Output

/-- One `OutputIter::next`: yields the stored output (clearing it),
or nothing. -/
def OutputIter.next (it : OutputIter) : Option Output × OutputIter :=
  match it.output with
  | none => (none, ⟨none⟩)
  | some o => (some o, ⟨none⟩)

/-- The full sequence `OutputIter` yields: the stored chunk, once. -/
def OutputIter.run (it : OutputIter) : List Output :=
  match it.output with
  | none => []
  | some o => [o]

/-! ## Output Normalizer (`main::OutputNormalizer`) -/

/-- The state of `main::OutputNormalizer` (minus the wrapped
reader, which our `run` takes as an explicit chunk list). -/
structure OutputNormalizer where
  ever_read : Bool
  prev_returned_output : Option Output
  keep_think_block : Bool
  no_stream : Bool
  inside_think_block : Bool

/-- `OutputNormalizer::new`. -/
def OutputNormalizer.new (keep_think_block no_stream : Bool) : OutputNormalizer :=
  { ever_read := false
  , prev_returned_output := none
  , keep_think_block := keep_think_block
  , no_stream := no_stream
  , inside_think_block := false }

/-- The body of the `for mut output in self.output_reader.by_ref()`
loop of `OutputNormalizer::next`, for a single raw chunk: the new
state, and the chunk returned to the consumer (`none` when
`skip_this_output` was set). -/
def OutputNormalizer.step (s : OutputNormalizer) (output : Output) :
    OutputNormalizer × Option Output :=
  if s.no_stream then
    let clean :=
      if s.keep_think_block then output.message
      else remove_think_block output.message
    let out : Output := { output with message := trimEndWs clean ++ ['\n'] }
    ({ s with ever_read := true, prev_returned_output := some out }, some out)
  else if !s.keep_think_block && !s.ever_read && output.message == thinkOpen then
    ({ s with ever_read := true, inside_think_block := true }, none)
  else if !s.keep_think_block && s.inside_think_block then
    if output.message == thinkClose then
      ({ s with ever_read := true, inside_think_block := false }, none)
    else
      ({ s with ever_read := true }, none)
  else if s.prev_returned_output.isNone then
    let out : Output := { output with message := trimStartWs output.message }
    if out.message.isEmpty && out.prompt_tokens.isNone
        && out.approximate_total.isNone then
      ({ s with ever_read := true }, none)
    else
      ({ s with ever_read := true, prev_returned_output := some out }, some out)
  else
    let out : Output :=
      if output.message.isEmpty then { output with message := ['\n'] }
      else output
    ({ s with ever_read := true, prev_returned_output := some out }, some out)

/-- The full sequence of chunks the normalizer hands to its consumer
over a list of raw chunks (the `for output in normalizer` loop run
to exhaustion). -/
def OutputNormalizer.run : OutputNormalizer → List Output → List Output
  | _, [] => []
  | s, o :: rest =>
    match s.step o with
    | (s1, none) => OutputNormalizer.run s1 rest
    | (s1, some out) => out :: OutputNormalizer.run s1 rest

/-- The normalizer state after consuming a list of raw chunks. -/
def OutputNormalizer.stateAfter : OutputNormalizer → List Output → OutputNormalizer
  | s, [] => s
  | s, o :: rest => OutputNormalizer.stateAfter (s.step o).1 rest

/-! ## Claim theorems: concrete evaluations -/

/-- C1: streamed mode, `keep_think_block = false`: the raw chunk
sequence with texts `<think>`, `asdf`, ` qwerty`, `</think>`,
`"\n\n"`, `lorem`, ` ipsum`, followed by a final empty-text chunk
carrying the usage metadata, normalizes to exactly the chunks
`lorem`, ` ipsum`, `"\n"`, where the final `"\n"` chunk carries the
final raw chunk's metadata unchanged and the earlier yielded chunks
carry none. -/
theorem streamed_think_block_elision (pt : Option Nat) (apx : Option (List Char)) :
    (OutputNormalizer.new false false).run
      [ ⟨("<think>").toList, none, none⟩
      , ⟨("asdf").toList, none, none⟩
      , ⟨(" qwerty").toList, none, none⟩
      , ⟨("</think>").toList, none, none⟩
      , ⟨("\n\n").toList, none, none⟩
      , ⟨("lorem").toList, none, none⟩
      , ⟨(" ipsum").toList, none, none⟩
      , ⟨[], pt, apx⟩ ]
    = [ ⟨("lorem").toList, none, none⟩
      , ⟨(" ipsum").toList, none, none⟩
      , ⟨['\n'], pt, apx⟩ ] := by
  rfl

/-- C2 counterexample: streamed mode with `keep_think_block = true`
does NOT pass every chunk through unmodified: on the raw sequence
`lorem`, then an empty-text chunk carrying usage metadata, the
normalizer rewrites the final empty text to `"\n"`, so the yielded
sequence differs from the raw sequence. -/
theorem streamed_keep_passthrough_cex :
    (OutputNormalizer.new true false).run
      [ ⟨("lorem").toList, none, none⟩
      , ⟨[], some 2, some (("foo bar").toList)⟩ ]
    ≠ [ ⟨("lorem").toList, none, none⟩
      , ⟨[], some 2, some (("foo bar").toList)⟩ ] := by
  decide

/-- C3: evaluation of the code at the failing input
`"<think>é</think>X"` (complete mode, `keep_think_block = false`).
Because `str::find` returns a *byte* offset (9: the accented
character occupies two bytes) while `chars().skip(pos + 8)` skips
*characters*, the code skips all 17 characters and discards the
answer text `X` along with the think block; the normalizer then
yields just `"\n"`, whereas the claimed behaviour — discard
everything up to and including `</think>` plus following line
breaks — would yield `"X\n"`. -/
theorem complete_think_block_byte_char_bug :
    remove_think_block (("<think>é</think>X").toList) = []
    ∧ (OutputNormalizer.new false true).run
        [⟨("<think>é</think>X").toList, none, none⟩]
      = [⟨['\n'], none, none⟩]
    ∧ (['\n'] : List Char) ≠ ("X\n").toList := by
  refine ⟨by decide, by decide, by decide⟩

/-- C4 counterexample: a streamed wire object whose `usage` carries
only `prompt_tokens` produces a chunk with `prompt_tokens` present
but `approximate_total` absent — the two fields are extracted
independently, so they are not always both present or both
absent. -/
theorem usage_pairing_cex :
    (TokenIter.chunkOf
        (Json.obj [(usageKey, Json.obj [(ptKey, Json.num 2)])])).prompt_tokens.isSome
      = true
    ∧ (TokenIter.chunkOf
        (Json.obj [(usageKey, Json.obj [(ptKey, Json.num 2)])])).approximate_total.isSome
      = false := by
  decide

/-- C8 counterexample: a streamed source whose only raw chunk has
empty text but carries usage metadata is yielded as the first
visible chunk with text `""` — not rewritten to `"\n"` — so the
last yielded chunk's text is not `"\n"`. -/
theorem trailing_newline_cex :
    ((OutputNormalizer.new false false).run
        [⟨[], some 2, some (("foo bar").toList)⟩]).getLast?
      = some ⟨[], some 2, some (("foo bar").toList)⟩
    ∧ ([] : List Char) ≠ ['\n'] := by
  decide

/-! ## Helper lemmas about the normalizer's step and run -/

/-- Every branch of `OutputNormalizer::next` only ever rewrites
`message`; the metadata fields of a returned chunk are those of the
raw chunk it was built from. -/
theorem step_meta_preserved (s : OutputNormalizer) (o out : Output)
    (h : (s.step o).2 = some out) :
    out.prompt_tokens = o.prompt_tokens
      ∧ out.approximate_total = o.approximate_total := by
  simp only [OutputNormalizer.step] at h
  split_ifs at h <;> simp_all <;> simp [← h]

/-- The configuration fields are immutable across a step. -/
theorem step_config (s : OutputNormalizer) (o : Output) :
    (s.step o).1.no_stream = s.no_stream
      ∧ (s.step o).1.keep_think_block = s.keep_think_block := by
  simp only [OutputNormalizer.step]
  split_ifs <;> simp

/-- `prev_returned_output` is never cleared by a step. -/
theorem step_prev_mono (s : OutputNormalizer) (o : Output)
    (h : s.prev_returned_output.isSome = true) :
    (s.step o).1.prev_returned_output.isSome = true := by
  simp only [OutputNormalizer.step]
  split_ifs <;> simp_all

/-- A step that returns a chunk records it in
`prev_returned_output`. -/
theorem step_yield_prev (s : OutputNormalizer) (o out : Output)
    (h : (s.step o).2 = some out) :
    (s.step o).1.prev_returned_output.isSome = true := by
  simp only [OutputNormalizer.step] at h ⊢
  split_ifs at h ⊢ <;> simp_all

/-- Invariant of reachable normalizer states: before anything has
been read nothing has been returned, and while inside a think block
nothing has been returned and the block is being elided. -/
def goodState (s : OutputNormalizer) : Prop :=
  (s.ever_read = false → s.prev_returned_output = none)
    ∧ (s.inside_think_block = true →
        s.prev_returned_output = none ∧ s.keep_think_block = false)

/-- The initial normalizer state is good. -/
theorem goodState_new (keep no_stream : Bool) :
    goodState (OutputNormalizer.new keep no_stream) := by
  refine ⟨fun h => rfl, fun h => ?_⟩
  simp [OutputNormalizer.new] at h

/-- A streamed-mode step preserves the state invariant. -/
theorem step_good (s : OutputNormalizer) (o : Output)
    (hns : s.no_stream = false) (h : goodState s) :
    goodState (s.step o).1 := by
  obtain ⟨h1, h2⟩ := h
  simp only [OutputNormalizer.step]
  split_ifs <;> constructor <;> intro hx <;> simp_all

/-- Configuration fields are immutable across any run. -/
theorem stateAfter_config (xs : List Output) : ∀ (s : OutputNormalizer),
    (s.stateAfter xs).no_stream = s.no_stream
      ∧ (s.stateAfter xs).keep_think_block = s.keep_think_block := by
  induction xs with
  | nil => intro s; exact ⟨rfl, rfl⟩
  | cons o rest ih =>
    intro s
    have hc := step_config s o
    have hr := ih (s.step o).1
    exact ⟨hr.1.trans hc.1, hr.2.trans hc.2⟩

/-- The invariant is preserved across a streamed-mode run. -/
theorem stateAfter_good (xs : List Output) : ∀ (s : OutputNormalizer),
    s.no_stream = false → goodState s → goodState (s.stateAfter xs) := by
  induction xs with
  | nil => intro s _ h; exact h
  | cons o rest ih =>
    intro s hns h
    exact ih (s.step o).1 ((step_config s o).1.trans hns) (step_good s o hns h)

/-- `prev_returned_output`, once set, stays set across a run. -/
theorem stateAfter_prev_mono (xs : List Output) : ∀ (s : OutputNormalizer),
    s.prev_returned_output.isSome = true →
    (s.stateAfter xs).prev_returned_output.isSome = true := by
  induction xs with
  | nil => intro s h; exact h
  | cons o rest ih => intro s h; exact ih (s.step o).1 (step_prev_mono s o h)

/-- A run over a concatenation is the concatenation of the runs,
the second starting from the intermediate state. -/
theorem run_append (xs : List Output) : ∀ (s : OutputNormalizer) (ys : List Output),
    s.run (xs ++ ys) = s.run xs ++ (s.stateAfter xs).run ys := by
  induction xs with
  | nil => intro s ys; rfl
  | cons o rest ih =>
    intro s ys
    show OutputNormalizer.run s (o :: (rest ++ ys)) = _
    simp only [OutputNormalizer.run, OutputNormalizer.stateAfter]
    cases hstep : s.step o with
    | mk s1 y =>
      cases y with
      | none => simpa using ih s1 ys
      | some out => simpa using ih s1 ys

/-- If a run returned at least one chunk, the final state records a
previously returned chunk. -/
theorem run_ne_nil_prev (xs : List Output) : ∀ (s : OutputNormalizer),
    s.run xs ≠ [] → (s.stateAfter xs).prev_returned_output.isSome = true := by
  induction xs with
  | nil => intro s h; exact absurd rfl h
  | cons o rest ih =>
    intro s h
    show ((s.step o).1.stateAfter rest).prev_returned_output.isSome = true
    revert h
    show OutputNormalizer.run s (o :: rest) ≠ [] → _
    simp only [OutputNormalizer.run]
    cases hstep : s.step o with
    | mk s1 y =>
      cases y with
      | none => intro h; exact ih s1 h
      | some out =>
        intro _
        have h1 : s1.prev_returned_output.isSome = true := by
          have := step_yield_prev s o out (by rw [hstep])
          rwa [hstep] at this
        exact stateAfter_prev_mono rest s1 h1

/-- The rewrite applied to a chunk once a previous chunk has been
returned: empty text becomes a single newline, everything else
passes through (src/main.rs, lines 161–167). -/
def streamTail (o : Output) : Output :=
  if o.message.isEmpty then { o with message := ['\n'] } else o

/-- The suppression test for a chunk arriving before anything has
been returned: leading-trimmed text empty and no usage metadata
(src/main.rs, lines 154–159). -/
def firstVisibleSkip (o : Output) : Bool :=
  (trimStartWs o.message).isEmpty && o.prompt_tokens.isNone
    && o.approximate_total.isNone

/-- Modelled from the amended C2 claim: in streamed mode with
`keep_think_block = true` the normalizer performs no think-block
suppression at all, but still applies the generic stream
normalizations — drop leading chunks whose trimmed text is empty
and that carry no metadata, trim leading whitespace from the first
surviving chunk, and rewrite the empty text of any later chunk to a
single newline, never touching metadata. -/
def keepStreamSpec : List Output → List Output
  | [] => []
  | o :: rest =>
    if firstVisibleSkip o then keepStreamSpec rest
    else { o with message := trimStartWs o.message } :: rest.map streamTail

/-- In a streamed-mode state that has already returned a chunk (and
is consistently outside any think block), a step always returns the
`streamTail` rewrite of the raw chunk. -/
theorem step_of_prev_some (s : OutputNormalizer) (o p : Output)
    (hns : s.no_stream = false) (hprev : s.prev_returned_output = some p)
    (hev : s.ever_read = true) (hin : s.inside_think_block = false) :
    s.step o =
      ({ s with ever_read := true, prev_returned_output := some (streamTail o) },
        some (streamTail o)) := by
  simp only [OutputNormalizer.step, streamTail, hns, hprev, hev, hin]
  simp

/-- Once a chunk has been returned, the rest of a streamed run is a
plain map of `streamTail` over the raw chunks. -/
theorem run_flowing (rest : List Output) : ∀ (s : OutputNormalizer) (p : Output),
    s.no_stream = false → s.prev_returned_output = some p →
    s.ever_read = true → s.inside_think_block = false →
    s.run rest = rest.map streamTail := by
  induction rest with
  | nil => intro s p _ _ _ _; rfl
  | cons o t ih =>
    intro s p hns hprev hev hin
    show OutputNormalizer.run s (o :: t) = _
    simp only [OutputNormalizer.run, step_of_prev_some s o p hns hprev hev hin]
    have h2 := ih { s with ever_read := true
                         , prev_returned_output := some (streamTail o) }
      (streamTail o) hns rfl rfl hin
    simpa using h2

/-- With `keep_think_block = true` (streamed) and nothing returned
yet, a step either suppresses the chunk (trimmed text empty, no
metadata) or returns it with its leading whitespace trimmed. -/
theorem step_awaiting_keep (s : OutputNormalizer) (o : Output)
    (hns : s.no_stream = false) (hkeep : s.keep_think_block = true)
    (hprev : s.prev_returned_output = none) :
    s.step o =
      if firstVisibleSkip o then ({ s with ever_read := true }, none)
      else ({ s with
                ever_read := true,
                prev_returned_output :=
                  some { o with message := trimStartWs o.message } },
            some { o with message := trimStartWs o.message }) := by
  simp only [OutputNormalizer.step, firstVisibleSkip, hns, hkeep, hprev]
  simp [Bool.and_assoc]

/-- A streamed run with `keep_think_block = true` starting from a
pristine (nothing-returned) state computes `keepStreamSpec`. -/
theorem run_keep_awaiting (chunks : List Output) : ∀ (s : OutputNormalizer),
    s.no_stream = false → s.keep_think_block = true →
    s.prev_returned_output = none → s.inside_think_block = false →
    s.run chunks = keepStreamSpec chunks := by
  induction chunks with
  | nil => intro s _ _ _ _; rfl
  | cons o rest ih =>
    intro s hns hkeep hprev hin
    show OutputNormalizer.run s (o :: rest) = _
    cases hskip : firstVisibleSkip o with
    | true =>
      simp only [OutputNormalizer.run, step_awaiting_keep s o hns hkeep hprev,
        hskip, if_true, keepStreamSpec]
      exact ih { s with ever_read := true } hns hkeep hprev hin
    | false =>
      simp only [OutputNormalizer.run, step_awaiting_keep s o hns hkeep hprev,
        hskip, keepStreamSpec]
      have h2 := run_flowing rest
        { s with
          ever_read := true,
          prev_returned_output := some { o with message := trimStartWs o.message } }
        { o with message := trimStartWs o.message } hns rfl rfl hin
      simpa using h2

/-- C2 (amended): in streamed mode with `keep_think_block = true`,
no chunk is suppressed or rewritten on account of the think block,
and metadata is never altered; however the generic stream
normalizations still apply: leading chunks whose trimmed text is
empty and that carry no metadata are dropped, the first surviving
chunk is yielded with its leading whitespace trimmed, and any later
chunk with empty text is yielded with text `"\n"`; all other chunks
pass through unmodified. -/
theorem streamed_keep_normalization (chunks : List Output) :
    (OutputNormalizer.new true false).run chunks = keepStreamSpec chunks :=
  run_keep_awaiting chunks _ rfl rfl rfl rfl

/-- A list with a known last element is a concatenation ending in
that element. -/
theorem eq_concat_of_getLast? {α : Type} :
    ∀ (l : List α) (a : α), l.getLast? = some a → ∃ t, l = t ++ [a] := by
  intro l
  induction l with
  | nil => intro a h; simp at h
  | cons x xs ih =>
    intro a h
    cases xs with
    | nil =>
      simp [List.getLast?] at h
      exact ⟨[], by simp [h]⟩
    | cons y ys =>
      rw [List.getLast?_cons_cons] at h
      obtain ⟨t, ht⟩ := ih a h
      exact ⟨x :: t, by simp [ht]⟩

/-- After a streamed run that returned at least one chunk, the state
is in the flowing phase: something was returned, something was read,
and the normalizer is outside any think block. -/
theorem flowing_after_nonempty (pre : List Output) (keep : Bool)
    (hpre : (OutputNormalizer.new keep false).run pre ≠ []) :
    ∃ p, ((OutputNormalizer.new keep false).stateAfter pre).prev_returned_output = some p
      ∧ ((OutputNormalizer.new keep false).stateAfter pre).no_stream = false
      ∧ ((OutputNormalizer.new keep false).stateAfter pre).ever_read = true
      ∧ ((OutputNormalizer.new keep false).stateAfter pre).inside_think_block = false := by
  have hprev := run_ne_nil_prev pre (OutputNormalizer.new keep false) hpre
  obtain ⟨p, hp⟩ := Option.isSome_iff_exists.mp hprev
  have hns1 : ((OutputNormalizer.new keep false).stateAfter pre).no_stream = false :=
    (stateAfter_config pre _).1
  have hgood : goodState ((OutputNormalizer.new keep false).stateAfter pre) :=
    stateAfter_good pre _ rfl (goodState_new keep false)
  refine ⟨p, hp, hns1, ?_, ?_⟩
  · cases hb : ((OutputNormalizer.new keep false).stateAfter pre).ever_read with
    | true => rfl
    | false => rw [hgood.1 hb] at hp; simp at hp
  · cases hb : ((OutputNormalizer.new keep false).stateAfter pre).inside_think_block with
    | false => rfl
    | true => rw [(hgood.2 hb).1] at hp; simp at hp

/-- C8 (amended): in streamed mode, whenever the normalizer has
already yielded at least one chunk before a final empty-text raw
chunk arrives, the last chunk it yields has text `"\n"` and carries
that final raw chunk's usage metadata unchanged. -/
theorem trailing_newline_amended (keep : Bool) (pre : List Output) (last1 : Output)
    (hmsg : last1.message = [])
    (hpre : (OutputNormalizer.new keep false).run pre ≠ []) :
    ((OutputNormalizer.new keep false).run (pre ++ [last1])).getLast?
      = some ⟨['\n'], last1.prompt_tokens, last1.approximate_total⟩ := by
  rw [run_append pre (OutputNormalizer.new keep false) [last1]]
  obtain ⟨p, hp, hns1, hev, hin⟩ := flowing_after_nonempty pre keep hpre
  have hstep := step_of_prev_some ((OutputNormalizer.new keep false).stateAfter pre)
    last1 p hns1 hp hev hin
  have hrun : ((OutputNormalizer.new keep false).stateAfter pre).run [last1]
      = [⟨['\n'], last1.prompt_tokens, last1.approximate_total⟩] := by
    show OutputNormalizer.run _ [last1] = _
    simp only [OutputNormalizer.run, hstep]
    simp [streamTail, hmsg]
  rw [hrun, List.getLast?_concat]

/-- C9: in streamed mode, for every terminating stream in which the
normalizer yields at least one chunk, the usage-metadata pair of the
last raw chunk before termination is carried, unchanged in value,
by the last chunk the normalizer yields. -/
theorem usage_metadata_roundtrip (keep : Bool) (chunks : List Output)
    (lastRaw lastOut : Output)
    (hraw : chunks.getLast? = some lastRaw)
    (hout : ((OutputNormalizer.new keep false).run chunks).getLast? = some lastOut) :
    lastOut.prompt_tokens = lastRaw.prompt_tokens
      ∧ lastOut.approximate_total = lastRaw.approximate_total := by
  obtain ⟨xs, rfl⟩ := eq_concat_of_getLast? chunks lastRaw hraw
  rw [run_append xs (OutputNormalizer.new keep false) [lastRaw]] at hout
  cases hstep : ((OutputNormalizer.new keep false).stateAfter xs).step lastRaw with
  | mk s2 y =>
    cases y with
    | none =>
      have hrun : ((OutputNormalizer.new keep false).stateAfter xs).run [lastRaw] = [] := by
        show OutputNormalizer.run _ [lastRaw] = []
        simp only [OutputNormalizer.run, hstep]
      rw [hrun, List.append_nil] at hout
      have hne : (OutputNormalizer.new keep false).run xs ≠ [] := by
        intro h0; rw [h0] at hout; simp at hout
      obtain ⟨p, hp, hns1, hev, hin⟩ := flowing_after_nonempty xs keep hne
      have hstep2 := step_of_prev_some ((OutputNormalizer.new keep false).stateAfter xs)
        lastRaw p hns1 hp hev hin
      rw [hstep2] at hstep
      simp [Prod.ext_iff] at hstep
    | some out =>
      have hrun : ((OutputNormalizer.new keep false).stateAfter xs).run [lastRaw]
          = [out] := by
        show OutputNormalizer.run _ [lastRaw] = [out]
        simp only [OutputNormalizer.run, hstep]
      rw [hrun, List.getLast?_concat] at hout
      have hout2 := Option.some.inj hout
      subst hout2
      exact step_meta_preserved _ lastRaw out (by rw [hstep])

/-- C5: in streamed mode, a wire line that is non-empty after CR/LF
trimming and does not begin with `data: ` produces no chunk and
terminates the sequence immediately with the error reported (the
lines after it are never consulted); in particular a source whose
first line lacks the marker yields zero chunks, an error, and no
panic (the run is a total function). -/
theorem fatal_line_termination (parse : List Char → Option Json)
    (pre : List (List Char)) (line : List Char) (rest : List (List Char))
    (hne : (trimBothCRLF line).isEmpty = false)
    (hpref : dataMarker.isPrefixOf (trimBothCRLF line) = false) :
    TokenIter.run parse (pre ++ line :: rest) = TokenIter.run parse (pre ++ [line])
      ∧ TokenIter.run parse (line :: rest) = ([], true) := by
  have hone : ∀ rest2 : List (List Char),
      TokenIter.run parse (line :: rest2) = ([], true) := by
    intro rest2
    show TokenIter.run parse (line :: rest2) = ([], true)
    simp only [TokenIter.run, hne, hpref]
    simp
  refine ⟨?_, hone rest⟩
  induction pre with
  | nil => rw [List.nil_append, List.nil_append, hone rest, hone []]
  | cons l ls ih =>
    show TokenIter.run parse (l :: (ls ++ line :: rest))
      = TokenIter.run parse (l :: (ls ++ [line]))
    simp only [TokenIter.run]
    rw [ih]

/-- C6: in streamed mode, field extraction from a parsed wire object
is permissive and never errors: an absent or non-string
`choices[0].delta.content` gives the empty text (a string value is
taken verbatim), and an absent or wrongly-typed
`usage.prompt_tokens` / `usage.approximate_total` leaves the
corresponding chunk field absent (a well-typed one is taken
verbatim). -/
theorem streamed_field_extraction_permissive (v : Json) :
    ((deltaContentOf v).asStr = none → (TokenIter.chunkOf v).message = [])
    ∧ (∀ s, (deltaContentOf v).asStr = some s → (TokenIter.chunkOf v).message = s)
    ∧ ((usagePtOf v).asU64 = none → (TokenIter.chunkOf v).prompt_tokens = none)
    ∧ (∀ n, (usagePtOf v).asU64 = some n → (TokenIter.chunkOf v).prompt_tokens = some n)
    ∧ ((usageAtOf v).asStr = none → (TokenIter.chunkOf v).approximate_total = none)
    ∧ (∀ s, (usageAtOf v).asStr = some s →
        (TokenIter.chunkOf v).approximate_total = some s) := by
  refine ⟨fun h => ?_, fun s h => ?_, fun h => ?_, fun n h => ?_,
    fun h => ?_, fun s h => ?_⟩ <;> simp [TokenIter.chunkOf, h]

/-- C7: in complete mode, a missing or non-string
`choices[0].message.content`, a missing or non-`u64`
`usage.prompt_tokens`, or a missing or non-string
`usage.approximate_total` makes the read fail with a fatal error and
no chunk; otherwise exactly one chunk carrying all three values is
produced and the sequence then ends. -/
theorem complete_mode_required_fields (v : Json) :
    (((messageContentOf v).asStr = none ∨ (usagePtOf v).asU64 = none
        ∨ (usageAtOf v).asStr = none) →
      ∃ e, get_complete_output v = Except.error e)
    ∧ (∀ m n s2, (messageContentOf v).asStr = some m →
        (usagePtOf v).asU64 = some n → (usageAtOf v).asStr = some s2 →
        get_complete_output v = Except.ok ⟨m, some n, some s2⟩
          ∧ OutputIter.run ⟨some ⟨m, some n, some s2⟩⟩ = [⟨m, some n, some s2⟩]) := by
  constructor
  · intro h
    cases hm : (messageContentOf v).asStr with
    | none => exact ⟨malformedMsg, by simp [get_complete_output, hm]⟩
    | some m =>
      cases hn : (usagePtOf v).asU64 with
      | none => exact ⟨ptNotIntMsg, by simp [get_complete_output, hm, hn]⟩
      | some n =>
        cases ha : (usageAtOf v).asStr with
        | none => exact ⟨malformedMsg, by simp [get_complete_output, hm, hn, ha]⟩
        | some a => rcases h with h | h | h <;> simp_all
  · intro m n s2 hm hn hs
    constructor
    · simp [get_complete_output, hm, hn, hs]
    · rfl

/-- C4 (amended): the single complete-mode chunk always carries both
`prompt_tokens` and `approximate_total`; a streamed chunk's two
metadata fields are extracted independently of each other —
`prompt_tokens` is present exactly when `usage.prompt_tokens` is a
`u64` and `approximate_total` exactly when `usage.approximate_total`
is a string — so they need not be both present or both absent. -/
theorem usage_pairing_amended :
    (∀ v o, get_complete_output v = Except.ok o →
        o.prompt_tokens.isSome = true ∧ o.approximate_total.isSome = true)
    ∧ (∀ v, (TokenIter.chunkOf v).prompt_tokens.isSome = ((usagePtOf v).asU64).isSome
        ∧ (TokenIter.chunkOf v).approximate_total.isSome
          = ((usageAtOf v).asStr).isSome) := by
  constructor
  · intro v o h
    simp only [get_complete_output] at h
    split at h
    · cases h
    · split at h
      · cases h
      · split at h
        · cases h
        · injection h with h2
          subst h2
          exact ⟨rfl, rfl⟩
  · intro v
    exact ⟨rfl, rfl⟩

/-- C10: a chunk returned by any branch of the normalizer — complete
or streamed mode, either `keep_think_block` — has exactly the
`prompt_tokens` and `approximate_total` of the raw chunk it was
derived from; only the message text is ever rewritten. -/
theorem normalizer_metadata_frame (s : OutputNormalizer) (o out : Output)
    (h : (s.step o).2 = some out) :
    out.prompt_tokens = o.prompt_tokens
      ∧ out.approximate_total = o.approximate_total :=
  step_meta_preserved s o out h

/-! ## Concrete witnesses -/

/-- A well-formed complete-mode response body. -/
def sampleCompleteJson : Json :=
  Json.obj
    [ (choicesKey, Json.arr
        [Json.obj [(messageKey, Json.obj [(contentKey, Json.str (("hi").toList))])]])
    , (usageKey, Json.obj
        [(ptKey, Json.num 2), (atKey, Json.str (("fast").toList))]) ]

theorem fatal_line_termination_witness :
    TokenIter.run (fun _ => (none : Option Json)) [("bogus").toList] = ([], true) :=
  (fatal_line_termination (fun _ => none) [] (("bogus").toList) []
    (by decide) (by decide)).2

theorem streamed_field_extraction_permissive_witness :
    (TokenIter.chunkOf Json.null).message = []
      ∧ (TokenIter.chunkOf Json.null).prompt_tokens = none
      ∧ (TokenIter.chunkOf Json.null).approximate_total = none :=
  ⟨(streamed_field_extraction_permissive Json.null).1 rfl,
   (streamed_field_extraction_permissive Json.null).2.2.1 rfl,
   (streamed_field_extraction_permissive Json.null).2.2.2.2.1 rfl⟩

theorem complete_mode_required_fields_witness :
    get_complete_output sampleCompleteJson
        = Except.ok ⟨("hi").toList, some 2, some (("fast").toList)⟩
      ∧ OutputIter.run ⟨some ⟨("hi").toList, some 2, some (("fast").toList)⟩⟩
        = [⟨("hi").toList, some 2, some (("fast").toList)⟩] :=
  (complete_mode_required_fields sampleCompleteJson).2
    (("hi").toList) 2 (("fast").toList) rfl rfl rfl

theorem usage_pairing_amended_witness :
    (Output.mk (("hi").toList) (some 2) (some (("fast").toList))).prompt_tokens.isSome
        = true
      ∧ (Output.mk (("hi").toList) (some 2)
          (some (("fast").toList))).approximate_total.isSome = true :=
  usage_pairing_amended.1 sampleCompleteJson
    (Output.mk (("hi").toList) (some 2) (some (("fast").toList))) (by rfl)

theorem trailing_newline_amended_witness :
    ((OutputNormalizer.new false false).run
        ([⟨("hi").toList, none, none⟩] ++ [⟨[], some 2, some (("fast").toList)⟩])).getLast?
      = some ⟨['\n'], some 2, some (("fast").toList)⟩ :=
  trailing_newline_amended false [⟨("hi").toList, none, none⟩]
    ⟨[], some 2, some (("fast").toList)⟩ rfl (by decide)

theorem usage_metadata_roundtrip_witness :
    (some 3 : Option Nat) = some 3
      ∧ (some (("t").toList) : Option (List Char)) = some (("t").toList) :=
  usage_metadata_roundtrip false [⟨("hi").toList, some 3, some (("t").toList)⟩]
    ⟨("hi").toList, some 3, some (("t").toList)⟩
    ⟨("hi").toList, some 3, some (("t").toList)⟩ (by decide) (by decide)

theorem normalizer_metadata_frame_witness :
    (some 5 : Option Nat) = some 5
      ∧ (some (("t").toList) : Option (List Char)) = some (("t").toList) :=
  normalizer_metadata_frame (OutputNormalizer.new false false)
    ⟨(" x").toList, some 5, some (("t").toList)⟩
    ⟨("x").toList, some 5, some (("t").toList)⟩ (by decide)
